import Mathlib

/-!
Verification of the copilot-agent workflow execution engine
(crates/copilot-workflow/src/step.rs, crates/copilot-workflow/src/execution.rs,
api/validation/mod.rs) against its specification.

Modelling conventions:
* Rust `HashMap<String, V>` is modelled as an association list with
  insert-replaces semantics (`mapInsert`/`mapGet`); iteration order details
  that the source leaves to the hash function are fixed to insertion order.
* `serde_json::Value` is modelled by the fragment `Json` covering exactly the
  values the embedded code constructs.
* `chrono::Utc::now()` timestamps are threaded in explicitly as natural
  numbers (the code only ever stores them, never computes with them).
* The effectful execution of one action attempt (external I/O and the timing
  race with `tokio::time::timeout`) is abstracted as a per-attempt oracle
  `AttemptOutcome`: whether the attempt timed out, and the `Result` the
  dispatched handler returned.  The concrete mock handlers of
  `DefaultStepExecutor` are embedded separately (`dispatchAction`).
* `Result<T, WorkflowError>` is `Except String T` (only the error message is
  observable in the properties considered).
-/

/-- Fragment of `serde_json::Value` covering the values constructed by the
embedded code: strings, integers, booleans, arrays of strings, and the empty
object. -/
inductive Json where
  | str (s : String)
  | num (n : ℤ)
  | bool (b : Bool)
  | strArr (l : List String)
  | emptyObj
deriving DecidableEq, Repr

/-- `HashMap<String, serde_json::Value>` of named step outputs. -/
abbrev OutMap := List (String × Json)

/-- `HashMap::get` on the association-list model. -/
def mapGet {α : Type} (m : List (String × α)) (k : String) : Option α :=
  (m.find? (fun p => p.1 == k)).map (fun p => p.2)

/-- `HashMap::insert` on the association-list model: replaces an existing
binding for the key. -/
def mapInsert {α : Type} (m : List (String × α)) (k : String) (v : α) :
    List (String × α) :=
  (k, v) :: m.filter (fun p => p.1 != k)

/-- `StepType` from step.rs. -/
inductive StepType where
  | Action
  | Condition
  | Approval
  | Parallel
  | Wait
deriving DecidableEq, Repr

/-- `StepState` from step.rs. -/
inductive StepState where
  | Pending
  | Running
  | Completed
  | Failed
  | Skipped
  | WaitingApproval
  | Paused
deriving DecidableEq, Repr

/-- `StepAction` from step.rs. -/
inductive StepAction where
  | Command (command : String) (args : List String) (env : List (String × String))
  | Script (language : String) (code : String)
  | HttpRequest (method : String) (url : String) (headers : List (String × String))
      (body : Option String)
  | AgentInvoke (agent_id : String) (parameters : List (String × Json))
  | Condition (expression : String) (true_steps : List String)
      (false_steps : List String)
  | Wait (duration_secs : ℕ)
  | Custom (handler : String) (parameters : List (String × Json))
deriving DecidableEq, Repr

/-- `WorkflowStep` from step.rs. -/
structure WorkflowStep where
  id : String
  name : String
  step_type : StepType
  action : StepAction
  dependencies : List String
  timeout_secs : Option ℕ
  retry_enabled : Bool
  max_retries : ℕ
  fail_on_error : Bool
  metadata : List (String × Json)
deriving DecidableEq, Repr

/-- `StepResult` from step.rs (timestamps as naturals, see header). -/
structure StepResult where
  step_id : String
  state : StepState
  outputs : OutMap
  error : Option String
  started_at : ℕ
  completed_at : Option ℕ
  retry_count : ℕ
deriving DecidableEq, Repr

namespace StepResult

/-- `StepResult::pending` (step.rs:118): `started_at` set to the current time,
which is passed explicitly here. -/
def pending (step_id : String) (now : ℕ) : StepResult :=
  { step_id := step_id
    state := StepState.Pending
    outputs := []
    error := none
    started_at := now
    completed_at := none
    retry_count := 0 }

/-- `StepResult::complete` (step.rs:131). -/
def complete (r : StepResult) (outputs : OutMap) (now : ℕ) : StepResult :=
  { r with state := StepState.Completed, outputs := outputs, completed_at := some now }

/-- `StepResult::fail` (step.rs:139). -/
def fail (r : StepResult) (error : String) (now : ℕ) : StepResult :=
  { r with state := StepState.Failed, error := some error, completed_at := some now }

/-- `StepResult::skip` (step.rs:147). -/
def skip (r : StepResult) (now : ℕ) : StepResult :=
  { r with state := StepState.Skipped, completed_at := some now }

/-- `StepResult::is_terminal` (step.rs:154). -/
def is_terminal (r : StepResult) : Bool :=
  match r.state with
  | StepState.Completed => true
  | StepState.Failed => true
  | StepState.Skipped => true
  | _ => false

/-- `StepResult::is_success` (step.rs:162). -/
def is_success (r : StepResult) : Bool :=
  r.state == StepState.Completed

end StepResult

/-- `ExecutionContext` from execution.rs: the two lock-guarded maps are
modelled as plain association lists, the lock acquisition being invisible to
the sequential properties considered here. -/
structure ExecutionContext where
  workflow_id : String
  execution_id : String
  state : List (String × Json)
  outputs : List (String × OutMap)
deriving DecidableEq, Repr

namespace ExecutionContext

/-- `ExecutionContext::new` (execution.rs:62). -/
def new (workflow_id execution_id : String) : ExecutionContext :=
  { workflow_id := workflow_id, execution_id := execution_id, state := [], outputs := [] }

/-- `ExecutionContext::get_state` (execution.rs:72). -/
def get_state (ctx : ExecutionContext) (key : String) : Option Json :=
  mapGet ctx.state key

/-- `ExecutionContext::set_state` (execution.rs:78). -/
def set_state (ctx : ExecutionContext) (key : String) (value : Json) : ExecutionContext :=
  { ctx with state := mapInsert ctx.state key value }

/-- `ExecutionContext::get_all_state` (execution.rs:84). -/
def get_all_state (ctx : ExecutionContext) : List (String × Json) :=
  ctx.state

/-- `ExecutionContext::get_step_outputs` (execution.rs:90). -/
def get_step_outputs (ctx : ExecutionContext) (step_id : String) : Option OutMap :=
  mapGet ctx.outputs step_id

/-- `ExecutionContext::set_step_outputs` (execution.rs:96). -/
def set_step_outputs (ctx : ExecutionContext) (step_id : String) (outs : OutMap) :
    ExecutionContext :=
  { ctx with outputs := mapInsert ctx.outputs step_id outs }

/-- `ExecutionContext::get_all_outputs` (execution.rs:106). -/
def get_all_outputs (ctx : ExecutionContext) : List (String × OutMap) :=
  ctx.outputs

/-- `ExecutionContext::clear` (execution.rs:112). -/
def clear (ctx : ExecutionContext) : ExecutionContext :=
  { ctx with state := [], outputs := [] }

end ExecutionContext

namespace DefaultStepExecutor

/-- Mock handler `execute_command` (execution.rs:286): always succeeds with
fixed outputs. -/
def execute_command (_command : String) (_args : List String)
    (_env : List (String × String)) (_context : ExecutionContext) :
    Except String OutMap :=
  Except.ok [("stdout", Json.str ""), ("stderr", Json.str ""),
             ("exit_code", Json.num 0)]

/-- Mock handler `execute_script` (execution.rs:305). -/
def execute_script (_language _code : String) (_context : ExecutionContext) :
    Except String OutMap :=
  Except.ok [("result", Json.str "success")]

/-- Mock handler `execute_http_request` (execution.rs:320). -/
def execute_http_request (_method _url : String) (_headers : List (String × String))
    (_body : Option String) (_context : ExecutionContext) : Except String OutMap :=
  Except.ok [("status_code", Json.num 200), ("body", Json.str "\x7b\x7d")]

/-- Mock handler `execute_agent_invoke` (execution.rs:338). -/
def execute_agent_invoke (_agent_id : String) (_parameters : List (String × Json))
    (_context : ExecutionContext) : Except String OutMap :=
  Except.ok [("agent_response", Json.emptyObj)]

/-- `execute_condition` (execution.rs:353): the mock implementation ignores
the expression, always reports `condition_result = true` and returns
`true_steps` as `next_steps`. -/
def execute_condition (_expression : String) (true_steps : List String)
    (_false_steps : List String) (_context : ExecutionContext) :
    Except String OutMap :=
  Except.ok [("condition_result", Json.bool true),
             ("next_steps", Json.strArr true_steps)]

/-- `execute_wait` (execution.rs:370): the sleep has no observable effect in
this model; the outputs record the waited duration. -/
def execute_wait (duration_secs : ℕ) : Except String OutMap :=
  Except.ok [("waited_secs", Json.num duration_secs)]

/-- Mock handler `execute_custom` (execution.rs:381). -/
def execute_custom (_handler : String) (_parameters : List (String × Json))
    (_context : ExecutionContext) : Except String OutMap :=
  Except.ok [("custom_result", Json.emptyObj)]

/-- The action-dispatch match block of `execute_step_once`
(execution.rs:236-258) with the concrete mock handlers. -/
def dispatchAction (action : StepAction) (context : ExecutionContext) :
    Except String OutMap :=
  match action with
  | StepAction.Command command args env => execute_command command args env context
  | StepAction.Script language code => execute_script language code context
  | StepAction.HttpRequest method url headers body =>
      execute_http_request method url headers body context
  | StepAction.AgentInvoke agent_id parameters =>
      execute_agent_invoke agent_id parameters context
  | StepAction.Condition expression true_steps false_steps =>
      execute_condition expression true_steps false_steps context
  | StepAction.Wait duration_secs => execute_wait duration_secs
  | StepAction.Custom handler parameters => execute_custom handler parameters context

end DefaultStepExecutor

/-- The externally observable outcome of dispatching a step's action once:
the start and end timestamps of the attempt, whether the `tokio::time::timeout`
race fired (only consulted when the step configures a timeout), and the
`Result` the action handler produced.  This is the oracle abstracting the
effectful boundary of `execute_step_once`. -/
structure AttemptOutcome where
  tStart : ℕ
  tEnd : ℕ
  timedOut : Bool
  result : Except String OutMap

namespace DefaultStepExecutor

/-- `execute_step_once` (execution.rs:226-284), over the attempt oracle.
Returns the `StepResult` together with the possibly-updated context
(`set_step_outputs` is the only context mutation).  Every control path of the
source returns `Ok(...)`: action-handler errors are converted to a Failed
`StepResult`, and the timeout branch returns early with a Failed result and
no context mutation. -/
def execute_step_once (step : WorkflowStep) (context : ExecutionContext)
    (o : AttemptOutcome) : Except String (StepResult × ExecutionContext) :=
  let result := { StepResult.pending step.id o.tStart with state := StepState.Running }
  match step.timeout_secs with
  | some timeout_secs =>
      if o.timedOut then
        Except.ok
          (result.fail ("Step timed out after " ++ toString timeout_secs ++ " seconds")
            o.tEnd, context)
      else
        match o.result with
        | Except.ok outputs =>
            Except.ok (result.complete outputs o.tEnd,
              context.set_step_outputs step.id outputs)
        | Except.error e => Except.ok (result.fail e o.tEnd, context)
  | none =>
      match o.result with
      | Except.ok outputs =>
          Except.ok (result.complete outputs o.tEnd,
            context.set_step_outputs step.id outputs)
      | Except.error e => Except.ok (result.fail e o.tEnd, context)

/-- The retry loop of `execute_with_retry` (execution.rs:171-222), with the
attempt index `retry_count` made explicit and the per-attempt oracle `o`
indexed by it.  The loop guard `retry_count < max_retries` of the source is
carried structurally as `remaining = max_retries - retry_count`, so
`0 < remaining` at attempt `retry_count` is exactly the source's guard; the
caller `execute_with_retry` establishes this correspondence by starting at
`retry_count = 0`, `remaining = max_retries`.  The third component of the
returned triple is ghost instrumentation counting the attempts performed
(`retry_count + 1` at exit); the source logs the same quantity
(`attempt = retry_count + 1`) but does not return it.  The backoff sleep
between attempts has no observable effect here. -/
def retryLoop (step : WorkflowStep) (o : ℕ → AttemptOutcome) :
    (remaining : ℕ) → (context : ExecutionContext) → (retry_count : ℕ) →
    Except String (StepResult × ExecutionContext × ℕ)
  | remaining, context, retry_count =>
    match execute_step_once step context (o retry_count) with
    | Except.ok step_result_ctx =>
        if step_result_ctx.1.is_success then
          Except.ok (step_result_ctx.1, step_result_ctx.2, retry_count + 1)
        else
          match remaining with
          | r + 1 => retryLoop step o r step_result_ctx.2 (retry_count + 1)
          | 0 => Except.ok (step_result_ctx.1, step_result_ctx.2, retry_count + 1)
    | Except.error e =>
        match remaining with
        | r + 1 => retryLoop step o r context (retry_count + 1)
        | 0 => Except.error e

/-- `execute_with_retry` (execution.rs:157-223): caps the retries at
`step.max_retries` when `retry_enabled`, else at 0, and starts the loop at
`retry_count = 0`. -/
def execute_with_retry (step : WorkflowStep) (o : ℕ → AttemptOutcome)
    (context : ExecutionContext) :
    Except String (StepResult × ExecutionContext × ℕ) :=
  retryLoop step o (if step.retry_enabled then step.max_retries else 0) context 0

/-- `StepExecutor::execute_step` for `DefaultStepExecutor`
(execution.rs:399-405): delegates to `execute_with_retry`. -/
def execute_step (step : WorkflowStep) (o : ℕ → AttemptOutcome)
    (context : ExecutionContext) :
    Except String (StepResult × ExecutionContext × ℕ) :=
  execute_with_retry step o context

end DefaultStepExecutor

/-- `u32 as i32` bit-reinterpretation used at `powi(attempt as i32)`
(execution.rs:40): values at or above `2^31` wrap to negative. -/
def u32AsI32 (n : ℕ) : ℤ :=
  if n % 2 ^ 32 < 2 ^ 31 then ((n % 2 ^ 32 : ℕ) : ℤ)
  else ((n % 2 ^ 32 : ℕ) : ℤ) - 2 ^ 32

/-- `RetryConfig` (execution.rs:14): `backoff_multiplier` is `f64` in the
source; its arithmetic is idealized as exact rational arithmetic (every value
appearing in the proved statements is exactly representable in `f64` and the
source's computations on them are exact). -/
structure RetryConfig where
  max_retries : ℕ
  initial_backoff_ms : ℕ
  max_backoff_ms : ℕ
  backoff_multiplier : ℚ
deriving DecidableEq, Repr

namespace RetryConfig

/-- `impl Default for RetryConfig` (execution.rs:25-34). -/
def default : RetryConfig :=
  { max_retries := 3
    initial_backoff_ms := 1000
    max_backoff_ms := 60000
    backoff_multiplier := 2 }

/-- `RetryConfig::calculate_backoff` (execution.rs:38-44), in milliseconds:
`(initial_backoff_ms as f64 * backoff_multiplier.powi(attempt as i32))
.min(max_backoff_ms as f64) as u64`.  The `as u64` cast truncates toward zero
and saturates at 0 for negative values, which on rationals is
`Int.toNat ∘ Int.floor` for the nonnegative results produced here. -/
def calculate_backoff (c : RetryConfig) (attempt : ℕ) : ℕ :=
  (Int.floor (min ((c.initial_backoff_ms : ℚ) * c.backoff_multiplier ^ u32AsI32 attempt)
    (c.max_backoff_ms : ℚ))).toNat

end RetryConfig

/-- The step results reachable through the `StepResult` constructor
`pending` followed by any sequence of the transition operations
`complete`, `fail`, `skip` (step.rs:116-151). -/
inductive ReachableStepResult : StepResult → Prop where
  | pending (step_id : String) (now : ℕ) :
      ReachableStepResult (StepResult.pending step_id now)
  | complete (r : StepResult) (outputs : OutMap) (now : ℕ) :
      ReachableStepResult r → ReachableStepResult (r.complete outputs now)
  | fail (r : StepResult) (e : String) (now : ℕ) :
      ReachableStepResult r → ReachableStepResult (r.fail e now)
  | skip (r : StepResult) (now : ℕ) :
      ReachableStepResult r → ReachableStepResult (r.skip now)

/-- Concrete step used to instantiate executor theorems: retries enabled with
`max_retries = 2`. -/
def wStepRetry : WorkflowStep :=
  { id := "s1"
    name := "step one"
    step_type := StepType.Action
    action := StepAction.Custom "h" []
    dependencies := []
    timeout_secs := none
    retry_enabled := true
    max_retries := 2
    fail_on_error := true
    metadata := [] }

/-- Concrete step used to instantiate the timeout theorem: 5-second timeout,
retries disabled. -/
def wStepTimeout : WorkflowStep :=
  { wStepRetry with id := "s2", timeout_secs := some 5, retry_enabled := false }

/-- Oracle of an action whose dispatch fails on every attempt. -/
def failOracle : ℕ → AttemptOutcome :=
  fun _ => { tStart := 0, tEnd := 1, timedOut := false, result := Except.error "boom" }

/-- Oracle of an attempt that times out every time. -/
def timeoutOracle : ℕ → AttemptOutcome :=
  fun _ => { tStart := 0, tEnd := 1, timedOut := true, result := Except.ok [] }

/-- Fresh empty execution context for concrete instantiations. -/
def ctx0 : ExecutionContext := ExecutionContext.new "wf" "ex"

/-- Modelled from the spec: the engine's aggregate execution status
(spec section 3, "Execution status"); `engine.rs` is not part of the
sources, only its tests and callers are. -/
inductive ExecStatus where
  | Pending
  | Running
  | WaitingApproval
  | Paused
  | Completed
  | Failed
  | Cancelled
deriving DecidableEq, Repr

/-- Modelled from the spec: the engine-owned view of one run — aggregate
status plus the derived step-id sets (spec section 3); `dispatched` records
every step id that ever began running. -/
structure EngineState where
  status : ExecStatus
  completed_steps : List String
  failed_steps : List String
  dispatched : List String
deriving DecidableEq, Repr

namespace WorkflowEngine

/-- Modelled from the spec: `ready_steps` (spec section 4.1) — steps whose
full dependency set is contained in `completed_steps` and which have not
already been dispatched. -/
def readySteps (steps : List WorkflowStep) (st : EngineState) : List WorkflowStep :=
  steps.filter (fun s =>
    s.dependencies.all (fun d => st.completed_steps.contains d) &&
    !(st.dispatched.contains s.id))

/-- Modelled from the spec: one iteration of the scheduling loop
(spec section 4.4) in a sequential abstraction — dispatch the first ready
step and incorporate its terminal result.  The whole Step Executor run of a
step (timeout, retries, backoff) is abstracted by the `outcome` oracle:
`outcome id = true` means the step terminates Completed, `false` means it
terminates Failed after exhausting its retries.  A Failed step with
`fail_on_error = true` marks the workflow Failed (spec: failure
propagation); when no step is ready and every step has completed, the run is
Completed. -/
def engineStep (steps : List WorkflowStep) (outcome : String → Bool)
    (st : EngineState) : EngineState :=
  match readySteps steps st with
  | [] =>
      if steps.all (fun s => st.completed_steps.contains s.id) then
        { st with status := ExecStatus.Completed }
      else st
  | s :: _ =>
      if outcome s.id then
        { st with dispatched := st.dispatched ++ [s.id],
                  completed_steps := st.completed_steps ++ [s.id] }
      else
        { st with dispatched := st.dispatched ++ [s.id],
                  failed_steps := st.failed_steps ++ [s.id],
                  status := if s.fail_on_error then ExecStatus.Failed else st.status }

/-- Modelled from the spec: the scheduling loop driver (spec section 4.4) —
while the status is Running, keep dispatching; consumes explicit fuel, which
`execute` sizes so the loop can always reach quiescence. -/
def runEngine (steps : List WorkflowStep) (outcome : String → Bool) :
    ℕ → EngineState → EngineState
  | 0, st => st
  | fuel + 1, st =>
      if st.status = ExecStatus.Running then
        runEngine steps outcome fuel (engineStep steps outcome st)
      else st

/-- Modelled from the spec: `execute` (spec section 4.4) — create a fresh
run in status Running and drive the scheduling loop to quiescence. -/
def execute (steps : List WorkflowStep) (outcome : String → Bool) : EngineState :=
  runEngine steps outcome (steps.length + 1)
    { status := ExecStatus.Running, completed_steps := [], failed_steps := [],
      dispatched := [] }

end WorkflowEngine

/-- Transitive dependency between step ids: `TransDep steps a b` holds when
the step with id `a` reaches `b` through a chain of `dependencies` edges. -/
inductive TransDep (steps : List WorkflowStep) : String → String → Prop where
  | direct (s : WorkflowStep) (d : String) :
      s ∈ steps → d ∈ s.dependencies → TransDep steps s.id d
  | tail (s : WorkflowStep) (d f : String) :
      s ∈ steps → d ∈ s.dependencies → TransDep steps d f → TransDep steps s.id f

/-- Invariant of the modelled scheduling loop: completed steps succeeded,
dispatched steps had their dependencies completed, completed steps were
dispatched, and failed steps failed — fatally marking the run Failed. -/
def EngineInv (steps : List WorkflowStep) (outcome : String → Bool)
    (st : EngineState) : Prop :=
  (∀ id ∈ st.completed_steps, outcome id = true) ∧
  (∀ s ∈ steps, s.id ∈ st.dispatched → ∀ d ∈ s.dependencies, d ∈ st.completed_steps) ∧
  (∀ id ∈ st.completed_steps, id ∈ st.dispatched) ∧
  (∀ s ∈ steps, s.id ∈ st.failed_steps →
    outcome s.id = false ∧ (s.fail_on_error = true → st.status = ExecStatus.Failed))

/-- Chain workflow A -> B -> C used to instantiate the failure-propagation
theorem. -/
def stepA : WorkflowStep :=
  { id := "A", name := "A", step_type := StepType.Action,
    action := StepAction.Custom "h" [], dependencies := [], timeout_secs := none,
    retry_enabled := false, max_retries := 3, fail_on_error := true, metadata := [] }

/-- Step B of the chain: depends on A, fails fatally. -/
def stepB : WorkflowStep := { stepA with id := "B", name := "B", dependencies := ["A"] }

/-- Step C of the chain: depends on B. -/
def stepC : WorkflowStep := { stepA with id := "C", name := "C", dependencies := ["B"] }

/-- The chain workflow. -/
def chainSteps : List WorkflowStep := [stepA, stepB, stepC]

/-- Outcome oracle where exactly step B fails. -/
def chainOutcome : String → Bool := fun id => !(id == "B")

/-- `RetryPolicy` (api/validation/mod.rs:304). -/
structure RetryPolicy where
  max_attempts : ℕ
  backoff_strategy : String
  initial_delay_ms : ℕ
  max_delay_ms : ℕ
deriving DecidableEq, Repr

/-- `WorkflowTask` (api/validation/mod.rs:258). -/
structure WorkflowTask where
  id : String
  task_type : String
  name : Option String
  depends_on : Option (List String)
  config : List (String × Json)
  retry_policy : Option RetryPolicy
  timeout_seconds : Option ℕ
deriving DecidableEq, Repr

/-- The dependencies walked by `validate_dag`: `if let Some(deps) =
&task.depends_on` treats `None` as no dependencies. -/
def WorkflowTask.deps (t : WorkflowTask) : List String :=
  t.depends_on.getD []

/-- The task ids, in declaration order. -/
def taskIds (tasks : List WorkflowTask) : List String :=
  tasks.map WorkflowTask.id

/-- The in-degree map built by `validate_dag` (mod.rs:375-384): every task id
gets an entry, incremented once per dependency occurrence of any task with
that id (`*in_degree.entry(&task.id).or_insert(0) += 1`). -/
def degInit (tasks : List WorkflowTask) (id : String) : ℕ :=
  ((tasks.filter (fun t => t.id == id)).map (fun t => t.deps.length)).sum

/-- The adjacency map built by `validate_dag`
(`graph.entry(dep.as_str()).or_default().push(&task.id)`, mod.rs:380):
targets of `d`, one copy of `task.id` per occurrence of `d` in that task's
dependency list, in iteration order. -/
def adj (tasks : List WorkflowTask) (d : String) : List String :=
  tasks.flatMap (fun t => (t.deps.filter (fun x => x == d)).map (fun _ => t.id))

/-- First-occurrence deduplication, modelling the `HashMap` key set of
`in_degree` in insertion order (the source's iteration order is left to the
hash function; only the resulting Ok/Err verdict is order-independent and is
what the theorems concern).  Structured with fuel so it computes by
reduction. -/
def dedupFirstAux : ℕ → List String → List String
  | 0, _ => []
  | _ + 1, [] => []
  | fuel + 1, x :: xs => x :: dedupFirstAux fuel (xs.filter (fun y => y != x))

/-- First-occurrence deduplication of a list of ids. -/
def dedupFirst (l : List String) : List String :=
  dedupFirstAux l.length l

/-- The inner neighbor walk of Kahn's algorithm (mod.rs:398-407): for each
neighbor present in the in-degree map, decrement its degree and enqueue it
when the degree reaches zero.  (On the unreachable underflow state —
decrementing a zero degree, where the source would panic — natural
subtraction stays at zero.) -/
def processNeighbors (ids : List String) :
    List String → (String → ℕ) → List String → ((String → ℕ) × List String)
  | [], deg, queue => (deg, queue)
  | nb :: nbs, deg, queue =>
    if ids.contains nb then
      processNeighbors ids nbs
        (fun x => if x = nb then deg nb - 1 else deg x)
        (if deg nb - 1 = 0 then queue ++ [nb] else queue)
    else
      processNeighbors ids nbs deg queue

/-- The main loop of Kahn's algorithm (mod.rs:393-408): pop a node, record
it (the source counts `processed += 1`; here the popped nodes are
accumulated and their number is the count), and process its neighbors.
Fuel-structured; `validate_dag` supplies enough fuel to reach an empty
queue. -/
def kahnLoop (tasks : List WorkflowTask) :
    ℕ → (String → ℕ) → List String → List String →
    ((String → ℕ) × List String × List String)
  | 0, deg, queue, popped => (deg, queue, popped)
  | fuel + 1, deg, queue, popped =>
    match queue with
    | [] => (deg, queue, popped)
    | node :: rest =>
      let p := processNeighbors (taskIds tasks) (adj tasks node) deg rest
      kahnLoop tasks fuel p.1 p.2 (popped ++ [node])

/-- `validate_dag` (api/validation/mod.rs:368-415): build in-degree and
adjacency maps, seed the queue with zero-in-degree ids, run Kahn's
algorithm, and report circular dependencies when the processed count falls
short of the task count. -/
def validate_dag (tasks : List WorkflowTask) : Except String Unit :=
  if (kahnLoop tasks (tasks.length + 1) (degInit tasks)
      ((dedupFirst (taskIds tasks)).filter (fun id => degInit tasks id = 0))
      []).2.2.length ≠ tasks.length then
    Except.error "Workflow contains circular dependencies"
  else
    Except.ok ()

/-- Transitive dependency between task ids along `depends_on` edges. -/
inductive TaskDep (tasks : List WorkflowTask) : String → String → Prop where
  | direct (t : WorkflowTask) (d : String) :
      t ∈ tasks → d ∈ t.deps → TaskDep tasks t.id d
  | tail (t : WorkflowTask) (d f : String) :
      t ∈ tasks → d ∈ t.deps → TaskDep tasks d f → TaskDep tasks t.id f

/-- The dependency relation of the task list contains a cycle. -/
def HasCycle (tasks : List WorkflowTask) : Prop :=
  ∃ a, TaskDep tasks a a

/-- A task id is founded when all its dependencies are (the well-founded part
of the dependency relation); Kahn's algorithm processes exactly the founded
ids. -/
inductive Founded (tasks : List WorkflowTask) : String → Prop where
  | mk (t : WorkflowTask) : t ∈ tasks → (∀ d ∈ t.deps, Founded tasks d) →
      Founded tasks t.id

/-- Acyclic task list whose single dependency references a non-existent task
id: `validate_dag` still reports circular dependencies on it. -/
def taskMissingDep : WorkflowTask :=
  { id := "a", task_type := "command", name := none, depends_on := some ["x"],
    config := [], retry_policy := none, timeout_seconds := none }

/-- A dependency-free task; a list repeating it has duplicate ids. -/
def taskPlain : WorkflowTask :=
  { id := "a", task_type := "command", name := none, depends_on := none,
    config := [], retry_policy := none, timeout_seconds := none }

/-- Two-task acyclic list with distinct ids and resolvable dependencies,
used to instantiate the amended C6 theorem. -/
def goodTasks : List WorkflowTask :=
  [{ id := "a", task_type := "command", name := none, depends_on := none,
     config := [], retry_policy := none, timeout_seconds := none },
   { id := "b", task_type := "command", name := none, depends_on := some ["a"],
     config := [], retry_policy := none, timeout_seconds := none }]

/-- Loop invariant of the embedded Kahn's algorithm, relating the degree
map, the queue and the list of popped nodes. -/
structure KahnInv (tasks : List WorkflowTask) (deg : String → ℕ)
    (queue popped : List String) : Prop where
  queue_nodup : queue.Nodup
  popped_nodup : popped.Nodup
  disj : ∀ x ∈ queue, x ∉ popped
  queue_ids : ∀ x ∈ queue, x ∈ taskIds tasks
  popped_ids : ∀ x ∈ popped, x ∈ taskIds tasks
  deg_eq : ∀ t ∈ tasks,
    deg t.id = (t.deps.filter (fun d => decide (d ∉ popped))).length
  queue_iff : ∀ t ∈ tasks, (t.id ∈ queue ↔ t.id ∉ popped ∧ deg t.id = 0)
  popped_closed : ∀ t ∈ tasks, t.id ∈ popped → ∀ d ∈ t.deps, d ∈ popped
  popped_founded : ∀ x ∈ popped, Founded tasks x
  queue_founded : ∀ x ∈ queue, Founded tasks x

/-- Invariant of the inner neighbor walk while the adjacency suffix `nbs` of
the just-popped `node` remains to be processed. -/
structure KahnMidInv (tasks : List WorkflowTask) (node : String)
    (popped nbs : List String) (deg : String → ℕ) (queue : List String) :
    Prop where
  queue_nodup : queue.Nodup
  queue_fresh : ∀ x ∈ queue, x ∉ popped ++ [node]
  queue_ids : ∀ x ∈ queue, x ∈ taskIds tasks
  deg_eq : ∀ t ∈ tasks,
    deg t.id = (t.deps.filter (fun d => decide (d ∉ popped ++ [node]))).length
      + nbs.count t.id
  queue_iff : ∀ t ∈ tasks,
    (t.id ∈ queue ↔ t.id ∉ popped ++ [node] ∧ deg t.id = 0)
  queue_founded : ∀ x ∈ queue, Founded tasks x

namespace DefaultStepExecutor

theorem execute_step_once_isOk (step : WorkflowStep) (ctx : ExecutionContext)
    (oc : AttemptOutcome) :
    ∃ sr ctx2, execute_step_once step ctx oc = Except.ok (sr, ctx2) := by
  unfold execute_step_once
  cases hts : step.timeout_secs <;> cases htd : oc.timedOut <;>
    cases hres : oc.result <;> simp

theorem execute_step_once_terminal (step : WorkflowStep) (ctx : ExecutionContext)
    (oc : AttemptOutcome) (sr : StepResult) (ctx2 : ExecutionContext)
    (h : execute_step_once step ctx oc = Except.ok (sr, ctx2)) :
    sr.completed_at = some oc.tEnd ∧ sr.is_terminal = true ∧ sr.retry_count = 0 := by
  unfold execute_step_once at h
  cases hts : step.timeout_secs <;> rw [hts] at h <;>
    cases htd : oc.timedOut <;> cases hres : oc.result <;>
    simp [htd, hres] at h <;>
    · obtain ⟨h1, _⟩ := h
      subst h1
      simp [StepResult.pending, StepResult.fail, StepResult.complete,
        StepResult.is_terminal]

theorem execute_step_once_err (step : WorkflowStep) (ctx : ExecutionContext)
    (oc : AttemptOutcome) (e : String) (h : oc.result = Except.error e) :
    ∃ sr, execute_step_once step ctx oc = Except.ok (sr, ctx) ∧
      sr.is_success = false ∧ sr.state = StepState.Failed := by
  unfold execute_step_once
  cases hts : step.timeout_secs <;> cases htd : oc.timedOut <;>
    simp [htd, h, StepResult.pending, StepResult.fail, StepResult.is_success]

theorem execute_step_once_timedOut (step : WorkflowStep) (ctx : ExecutionContext)
    (oc : AttemptOutcome) (n : ℕ) (h1 : step.timeout_secs = some n)
    (h2 : oc.timedOut = true) :
    execute_step_once step ctx oc = Except.ok
      (StepResult.fail { StepResult.pending step.id oc.tStart with state := StepState.Running }
        ("Step timed out after " ++ toString n ++ " seconds") oc.tEnd, ctx) := by
  unfold execute_step_once
  rw [h1]
  simp [h2]

theorem retryLoop_isOk (step : WorkflowStep) (o : ℕ → AttemptOutcome) :
    ∀ (remaining : ℕ) (ctx : ExecutionContext) (rc : ℕ),
    ∃ sr ctx2 n, retryLoop step o remaining ctx rc = Except.ok (sr, ctx2, n) := by
  intro remaining
  induction remaining with
  | zero =>
    intro ctx rc
    obtain ⟨sr, ctx2, h⟩ := execute_step_once_isOk step ctx (o rc)
    rw [retryLoop, h]
    cases hs : sr.is_success <;> simp [hs]
  | succ r ih =>
    intro ctx rc
    obtain ⟨sr, ctx2, h⟩ := execute_step_once_isOk step ctx (o rc)
    rw [retryLoop, h]
    cases hs : sr.is_success with
    | true => simp [hs]
    | false =>
      simp only [hs, Bool.false_eq_true, if_false]
      exact ih ctx2 (rc + 1)

theorem retryLoop_count_le (step : WorkflowStep) (o : ℕ → AttemptOutcome) :
    ∀ (remaining : ℕ) (ctx : ExecutionContext) (rc : ℕ) sr ctx2 n,
    retryLoop step o remaining ctx rc = Except.ok (sr, ctx2, n) →
    n ≤ rc + remaining + 1 := by
  intro remaining
  induction remaining with
  | zero =>
    intro ctx rc sr ctx2 n h
    rw [retryLoop] at h
    cases honce : execute_step_once step ctx (o rc) with
    | ok p =>
      rw [honce] at h
      cases hs : p.1.is_success <;> simp [hs] at h <;> omega
    | error e =>
      rw [honce] at h
      simp at h
  | succ r ih =>
    intro ctx rc sr ctx2 n h
    rw [retryLoop] at h
    cases honce : execute_step_once step ctx (o rc) with
    | ok p =>
      rw [honce] at h
      cases hs : p.1.is_success with
      | true =>
        simp [hs] at h
        omega
      | false =>
        simp only [hs, Bool.false_eq_true, if_false] at h
        have := ih p.2 (rc + 1) sr ctx2 n h
        omega
    | error e =>
      rw [honce] at h
      have := ih ctx (rc + 1) sr ctx2 n h
      omega

theorem retryLoop_all_fail (step : WorkflowStep) (o : ℕ → AttemptOutcome)
    (hfail : ∀ k, ∃ e, (o k).result = Except.error e) :
    ∀ (remaining : ℕ) (ctx : ExecutionContext) (rc : ℕ),
    ∃ sr, retryLoop step o remaining ctx rc = Except.ok (sr, ctx, rc + remaining + 1) ∧
      sr.state = StepState.Failed ∧ sr.is_terminal = true := by
  intro remaining
  induction remaining with
  | zero =>
    intro ctx rc
    obtain ⟨e, he⟩ := hfail rc
    obtain ⟨sr, h, hsucc, hst⟩ := execute_step_once_err step ctx (o rc) e he
    refine ⟨sr, ?_, hst, ?_⟩
    · rw [retryLoop, h]
      simp [hsucc]
    · simp [StepResult.is_terminal, hst]
  | succ r ih =>
    intro ctx rc
    obtain ⟨e, he⟩ := hfail rc
    obtain ⟨sr, h, hsucc, hst⟩ := execute_step_once_err step ctx (o rc) e he
    obtain ⟨sr2, h2, hst2, hterm2⟩ := ih ctx (rc + 1)
    refine ⟨sr2, ?_, hst2, hterm2⟩
    rw [retryLoop, h]
    simp only [hsucc, Bool.false_eq_true, if_false]
    have harith : rc + 1 + r + 1 = rc + (r + 1) + 1 := by omega
    rw [h2, harith]

end DefaultStepExecutor

namespace DefaultStepExecutor

theorem retryLoop_result_terminal (step : WorkflowStep) (o : ℕ → AttemptOutcome) :
    ∀ (remaining : ℕ) (ctx : ExecutionContext) (rc : ℕ) sr ctx2 n,
    retryLoop step o remaining ctx rc = Except.ok (sr, ctx2, n) →
    sr.completed_at.isSome = true ∧ sr.is_terminal = true := by
  intro remaining
  induction remaining with
  | zero =>
    intro ctx rc sr ctx2 n h
    rw [retryLoop] at h
    cases honce : execute_step_once step ctx (o rc) with
    | ok p =>
      rw [honce] at h
      have hterm := execute_step_once_terminal step ctx (o rc) p.1 p.2 (by rw [honce])
      cases hs : p.1.is_success <;> simp [hs] at h <;>
        · obtain ⟨h1, _⟩ := h
          subst h1
          simp [hterm.1, hterm.2.1]
    | error e =>
      rw [honce] at h
      simp at h
  | succ r ih =>
    intro ctx rc sr ctx2 n h
    rw [retryLoop] at h
    cases honce : execute_step_once step ctx (o rc) with
    | ok p =>
      rw [honce] at h
      have hterm := execute_step_once_terminal step ctx (o rc) p.1 p.2 (by rw [honce])
      cases hs : p.1.is_success with
      | true =>
        simp [hs] at h
        obtain ⟨h1, _⟩ := h
        subst h1
        simp [hterm.1, hterm.2.1]
      | false =>
        simp only [hs, Bool.false_eq_true, if_false] at h
        exact ih p.2 (rc + 1) sr ctx2 n h
    | error e =>
      rw [honce] at h
      exact ih ctx (rc + 1) sr ctx2 n h

end DefaultStepExecutor

/-- C1: for a step with `retry_enabled = true` and `max_retries = N` whose
action dispatch fails on every attempt, `DefaultStepExecutor::execute_step`
performs exactly `N + 1` attempts and returns a Failed terminal `StepResult`;
with `retry_enabled = false` it performs exactly one attempt regardless of
`max_retries`.  The attempt count is the ghost third component of the result;
both cases are captured by `(if retry_enabled then max_retries else 0) + 1`. -/
theorem C1_retry_attempt_count (step : WorkflowStep) (o : ℕ → AttemptOutcome)
    (ctx : ExecutionContext)
    (hfail : ∀ k, ∃ e, (o k).result = Except.error e) :
    ∃ sr, DefaultStepExecutor.execute_step step o ctx =
      Except.ok (sr, ctx, (if step.retry_enabled then step.max_retries else 0) + 1) ∧
      sr.state = StepState.Failed ∧ sr.is_terminal = true := by
  obtain ⟨sr, h, hst, hterm⟩ := DefaultStepExecutor.retryLoop_all_fail step o hfail
    (if step.retry_enabled then step.max_retries else 0) ctx 0
  refine ⟨sr, ?_, hst, hterm⟩
  unfold DefaultStepExecutor.execute_step DefaultStepExecutor.execute_with_retry
  rw [h]
  norm_num

/-- Witness for C1: with `max_retries = 2` and an always-failing dispatch,
exactly 3 attempts are made and the result is Failed. -/
theorem C1_retry_attempt_count_witness :
    (∀ k : ℕ, ∃ e, (failOracle k).result = Except.error e) ∧
    (∃ sr, DefaultStepExecutor.execute_step wStepRetry failOracle ctx0 =
      Except.ok (sr, ctx0, 3) ∧
      sr.state = StepState.Failed ∧ sr.is_terminal = true) := by
  refine ⟨fun k => ⟨"boom", rfl⟩, ?_⟩
  exact C1_retry_attempt_count wStepRetry failOracle ctx0 (fun k => ⟨"boom", rfl⟩)

/-- C2: `execute_step` always returns `Ok` of a `StepResult`; in particular
`execute_step_once` returns `Ok` on every control path (action-dispatch
errors become a Failed `StepResult`), so the `Err`-propagating branch of
`execute_with_retry` is unreachable. -/
theorem C2_execute_step_never_err (step : WorkflowStep) (o : ℕ → AttemptOutcome)
    (ctx : ExecutionContext) :
    (∃ sr ctx2 n, DefaultStepExecutor.execute_step step o ctx =
      Except.ok (sr, ctx2, n)) ∧
    (∀ oc, ∃ sr ctx2, DefaultStepExecutor.execute_step_once step ctx oc =
      Except.ok (sr, ctx2)) := by
  constructor
  · unfold DefaultStepExecutor.execute_step DefaultStepExecutor.execute_with_retry
    exact DefaultStepExecutor.retryLoop_isOk step o _ ctx 0
  · intro oc
    exact DefaultStepExecutor.execute_step_once_isOk step ctx oc

/-- C3: an attempt that hits the configured timeout `N` produces a Failed
result with error message `"Step timed out after N seconds"` and leaves the
execution context untouched (no outputs written), and the total number of
attempts of `execute_step` never exceeds the configured retry bound. -/
theorem C3_timeout_failure (step : WorkflowStep) (ctx : ExecutionContext)
    (o : ℕ → AttemptOutcome) (n k : ℕ)
    (h1 : step.timeout_secs = some n) (h2 : (o k).timedOut = true) :
    (∃ sr, DefaultStepExecutor.execute_step_once step ctx (o k) = Except.ok (sr, ctx) ∧
      sr.state = StepState.Failed ∧
      sr.error = some ("Step timed out after " ++ toString n ++ " seconds")) ∧
    (∀ sr ctx2 m, DefaultStepExecutor.execute_step step o ctx = Except.ok (sr, ctx2, m) →
      m ≤ (if step.retry_enabled then step.max_retries else 0) + 1) := by
  constructor
  · refine ⟨_, DefaultStepExecutor.execute_step_once_timedOut step ctx (o k) n h1 h2, ?_, ?_⟩
    · simp [StepResult.fail, StepResult.pending]
    · simp [StepResult.fail, StepResult.pending]
  · intro sr ctx2 m hm
    unfold DefaultStepExecutor.execute_step DefaultStepExecutor.execute_with_retry at hm
    have := DefaultStepExecutor.retryLoop_count_le step o _ ctx 0 sr ctx2 m hm
    omega

/-- Witness for C3: a step with a 5-second timeout whose attempt times out. -/
theorem C3_timeout_failure_witness :
    (wStepTimeout.timeout_secs = some 5 ∧ (timeoutOracle 0).timedOut = true) ∧
    ((∃ sr, DefaultStepExecutor.execute_step_once wStepTimeout ctx0 (timeoutOracle 0) =
        Except.ok (sr, ctx0) ∧
      sr.state = StepState.Failed ∧
      sr.error = some ("Step timed out after " ++ toString 5 ++ " seconds")) ∧
    (∀ sr ctx2 m,
      DefaultStepExecutor.execute_step wStepTimeout timeoutOracle ctx0 =
        Except.ok (sr, ctx2, m) →
      m ≤ (if wStepTimeout.retry_enabled then wStepTimeout.max_retries else 0) + 1)) :=
  ⟨⟨rfl, rfl⟩, C3_timeout_failure wStepTimeout ctx0 timeoutOracle 5 0 rfl rfl⟩

/-- C5: the claim says the returned `StepResult.retry_count` records the
attempts consumed; the source tracks `retry_count` only in a local of
`execute_with_retry` and never writes it into the returned `StepResult`
(which keeps the 0 set by `StepResult::pending`).  Evaluated at the failing
input: retries enabled, `max_retries = 2`, dispatch failing every attempt —
three attempts are consumed (ghost count 3) yet the returned `retry_count`
is 0, not 2. -/
theorem C5_retry_count_stays_zero :
    DefaultStepExecutor.execute_step wStepRetry failOracle ctx0 =
      Except.ok ({ step_id := "s1", state := StepState.Failed, outputs := [],
                   error := some "boom", started_at := 0, completed_at := some 1,
                   retry_count := 0 }, ctx0, 3) := by
  rfl

/-- C8: every `StepResult` reachable through the `StepResult` operations, and
every `StepResult` returned by `execute_step`, has `completed_at` set exactly
when its state is terminal ({Completed, Failed, Skipped}). -/
theorem C8_completed_at_iff_terminal (r : StepResult)
    (h : ReachableStepResult r ∨
      ∃ step ctx o sr ctx2 n, DefaultStepExecutor.execute_step step o ctx =
        Except.ok (sr, ctx2, n) ∧ sr = r) :
    r.completed_at.isSome = true ↔ r.is_terminal = true := by
  rcases h with h | ⟨step, ctx, o, sr, ctx2, n, hex, hr⟩
  · induction h with
    | pending step_id now => simp [StepResult.pending, StepResult.is_terminal]
    | complete r outputs now _ _ => simp [StepResult.complete, StepResult.is_terminal]
    | fail r e now _ _ => simp [StepResult.fail, StepResult.is_terminal]
    | skip r now _ _ => simp [StepResult.skip, StepResult.is_terminal]
  · subst hr
    unfold DefaultStepExecutor.execute_step DefaultStepExecutor.execute_with_retry at hex
    have hp := DefaultStepExecutor.retryLoop_result_terminal step o _ ctx 0 sr ctx2 n hex
    simp [hp.1, hp.2]

/-- Witness for C8 at the pending result. -/
theorem C8_completed_at_iff_terminal_witness :
    (ReachableStepResult (StepResult.pending "s" 0) ∨
      ∃ step ctx o sr ctx2 n, DefaultStepExecutor.execute_step step o ctx =
        Except.ok (sr, ctx2, n) ∧ sr = StepResult.pending "s" 0) ∧
    ((StepResult.pending "s" 0).completed_at.isSome = true ↔
      (StepResult.pending "s" 0).is_terminal = true) :=
  ⟨Or.inl (ReachableStepResult.pending "s" 0),
   C8_completed_at_iff_terminal (StepResult.pending "s" 0)
     (Or.inl (ReachableStepResult.pending "s" 0))⟩

/-- C9: after `clear()`, every state key and every step-output lookup returns
`None`, the full state and output maps are empty, and the identifiers are
unchanged. -/
theorem C9_clear_empties_context (ctx : ExecutionContext) (k sid : String) :
    (ctx.clear).get_state k = none ∧
    (ctx.clear).get_step_outputs sid = none ∧
    (ctx.clear).get_all_state = [] ∧
    (ctx.clear).get_all_outputs = [] ∧
    (ctx.clear).workflow_id = ctx.workflow_id ∧
    (ctx.clear).execution_id = ctx.execution_id := by
  simp [ExecutionContext.clear, ExecutionContext.get_state,
    ExecutionContext.get_step_outputs, ExecutionContext.get_all_state,
    ExecutionContext.get_all_outputs, mapGet]

/-- C10: the Condition handler ignores its expression and `false_steps`: it
always succeeds with `condition_result = true` and `next_steps = true_steps`,
and its value is invariant under changing the expression, the `false_steps`,
and the context. -/
theorem C10_condition_always_true_branch (expression expression2 : String)
    (true_steps false_steps false_steps2 : List String)
    (ctx ctx2 : ExecutionContext) :
    DefaultStepExecutor.execute_condition expression true_steps false_steps ctx =
      Except.ok [("condition_result", Json.bool true),
                 ("next_steps", Json.strArr true_steps)] ∧
    DefaultStepExecutor.execute_condition expression true_steps false_steps ctx =
      DefaultStepExecutor.execute_condition expression2 true_steps false_steps2 ctx2 :=
  ⟨rfl, rfl⟩

theorem u32AsI32_of_lt (a : ℕ) (h : a < 2 ^ 31) : u32AsI32 a = (a : ℤ) := by
  unfold u32AsI32
  have h32 : a % 2 ^ 32 = a := Nat.mod_eq_of_lt (by omega)
  rw [h32]
  rw [if_pos h]

theorem floor_min_natCast (x : ℚ) (M : ℕ) :
    Int.floor (min x (M : ℚ)) = min (Int.floor x) (M : ℤ) := by
  have h : Int.floor (min x (M : ℚ)) = min (Int.floor x) (Int.floor (M : ℚ)) :=
    Monotone.map_min Int.floor_mono
  rw [h, Int.floor_natCast]

/-- C4 (amended): `calculate_backoff(a)` equals
`min(initial_backoff_ms * multiplier^a, max_backoff_ms)` truncated to a whole
number of milliseconds, for attempt indices below `2^31` (beyond which the
source's `attempt as i32` cast wraps to a negative exponent); under the
default configuration (1000ms initial, multiplier 2, 60000ms cap) the value
is exactly `min(1000 * 2^a, 60000)`, never exceeds the cap, and is
non-decreasing while the successor index stays below `2^31`. -/
theorem C4_backoff_formula (c : RetryConfig) (a : ℕ) (h : a < 2 ^ 31) :
    c.calculate_backoff a =
      min (Int.floor ((c.initial_backoff_ms : ℚ) * c.backoff_multiplier ^ a)).toNat
        c.max_backoff_ms ∧
    RetryConfig.default.calculate_backoff a = min (1000 * 2 ^ a) 60000 ∧
    RetryConfig.default.calculate_backoff a ≤ 60000 ∧
    (a + 1 < 2 ^ 31 →
      RetryConfig.default.calculate_backoff a ≤
        RetryConfig.default.calculate_backoff (a + 1)) := by
  have key : ∀ c' : RetryConfig, c'.calculate_backoff a =
      min (Int.floor ((c'.initial_backoff_ms : ℚ) * c'.backoff_multiplier ^ a)).toNat
        c'.max_backoff_ms := by
    intro c'
    unfold RetryConfig.calculate_backoff
    rw [u32AsI32_of_lt a h, zpow_natCast, floor_min_natCast]
    omega
  have keyDefault : ∀ b : ℕ, b < 2 ^ 31 →
      RetryConfig.default.calculate_backoff b = min (1000 * 2 ^ b) 60000 := by
    intro b hb
    unfold RetryConfig.calculate_backoff
    rw [u32AsI32_of_lt b hb, zpow_natCast]
    show (Int.floor (min ((1000 : ℚ) * 2 ^ b) (60000 : ℚ))).toNat = _
    have hcast : (1000 : ℚ) * 2 ^ b = ((1000 * 2 ^ b : ℕ) : ℚ) := by
      push_cast
      ring
    rw [hcast, show (60000 : ℚ) = ((60000 : ℕ) : ℚ) from by norm_num,
      floor_min_natCast, Int.floor_natCast]
    omega
  refine ⟨key c, keyDefault a h, ?_, ?_⟩
  · rw [keyDefault a h]
    exact min_le_right _ _
  · intro hsucc
    rw [keyDefault a h, keyDefault (a + 1) hsucc]
    refine min_le_min ?_ le_rfl
    have hp : 2 ^ a ≤ 2 ^ (a + 1) := Nat.pow_le_pow_right (by norm_num) (Nat.le_succ a)
    omega

/-- Witness for the amended C4 at the default configuration, attempt 3. -/
theorem C4_backoff_formula_witness :
    3 < 2 ^ 31 ∧
    (RetryConfig.default.calculate_backoff 3 =
      min (Int.floor ((RetryConfig.default.initial_backoff_ms : ℚ) *
        RetryConfig.default.backoff_multiplier ^ 3)).toNat
        RetryConfig.default.max_backoff_ms ∧
    RetryConfig.default.calculate_backoff 3 = min (1000 * 2 ^ 3) 60000 ∧
    RetryConfig.default.calculate_backoff 3 ≤ 60000 ∧
    (3 + 1 < 2 ^ 31 →
      RetryConfig.default.calculate_backoff 3 ≤
        RetryConfig.default.calculate_backoff (3 + 1))) :=
  ⟨by norm_num, C4_backoff_formula RetryConfig.default 3 (by norm_num)⟩

/-- C4 fails as stated: with `initial_backoff_ms = 1` and multiplier `3/2`,
the backoff at attempt 1 is 1ms, not the claimed
`min(1 * (3/2)^1, 60000) = 1.5` milliseconds — the final `as u64` cast
truncates to whole milliseconds. -/
theorem C4_backoff_formula_counterexample :
    RetryConfig.calculate_backoff
      { max_retries := 3, initial_backoff_ms := 1, max_backoff_ms := 60000,
        backoff_multiplier := 3 / 2 } 1 = 1 ∧
    ¬ ((RetryConfig.calculate_backoff
        { max_retries := 3, initial_backoff_ms := 1, max_backoff_ms := 60000,
          backoff_multiplier := 3 / 2 } 1 : ℚ) =
      min ((1 : ℚ) * (3 / 2) ^ (1 : ℕ)) 60000) := by
  have hval : RetryConfig.calculate_backoff
      { max_retries := 3, initial_backoff_ms := 1, max_backoff_ms := 60000,
        backoff_multiplier := 3 / 2 } 1 = 1 := by
    unfold RetryConfig.calculate_backoff
    rw [u32AsI32_of_lt 1 (by norm_num), zpow_natCast]
    show (Int.floor (min ((1 : ℚ) * (3 / 2) ^ (1 : ℕ)) (60000 : ℚ))).toNat = 1
    rw [min_eq_left (by norm_num)]
    have hf : Int.floor ((1 : ℚ) * (3 / 2) ^ (1 : ℕ)) = 1 := by
      rw [Int.floor_eq_iff]
      norm_num
    rw [hf]
    rfl
  refine ⟨hval, ?_⟩
  rw [hval]
  rw [min_eq_left (by norm_num)]
  norm_num

theorem readySteps_sound (steps : List WorkflowStep) (st : EngineState)
    (s : WorkflowStep) (h : s ∈ WorkflowEngine.readySteps steps st) :
    s ∈ steps ∧ (∀ d ∈ s.dependencies, d ∈ st.completed_steps) ∧
    s.id ∉ st.dispatched := by
  unfold WorkflowEngine.readySteps at h
  rw [List.mem_filter] at h
  obtain ⟨hs, hcond⟩ := h
  simp only [Bool.and_eq_true, List.all_eq_true, Bool.not_eq_true'] at hcond
  refine ⟨hs, ?_, ?_⟩
  · intro d hd
    exact List.elem_iff.mp (hcond.1 d hd)
  · intro hmem
    have hc : st.dispatched.contains s.id = true := List.elem_iff.mpr hmem
    rw [hc] at hcond
    exact Bool.noConfusion hcond.2

theorem engineStep_inv (steps : List WorkflowStep) (outcome : String → Bool)
    (st : EngineState) (hnd : (steps.map WorkflowStep.id).Nodup)
    (hrun : st.status = ExecStatus.Running) (hinv : EngineInv steps outcome st) :
    EngineInv steps outcome (WorkflowEngine.engineStep steps outcome st) := by
  obtain ⟨h1, h2, h3, h4⟩ := hinv
  have hnofail : ∀ t ∈ steps, t.id ∈ st.failed_steps → t.fail_on_error = true → False := by
    intro t ht htf hfoe
    have hfail := (h4 t ht htf).2 hfoe
    rw [hrun] at hfail
    exact ExecStatus.noConfusion hfail
  unfold WorkflowEngine.engineStep
  cases hready : WorkflowEngine.readySteps steps st with
  | nil =>
    by_cases hall : (steps.all fun s => st.completed_steps.contains s.id) = true
    · rw [if_pos hall]
      exact ⟨h1, h2, h3, fun t ht htf =>
        ⟨(h4 t ht htf).1, fun hfoe => False.elim (hnofail t ht htf hfoe)⟩⟩
    · rw [if_neg hall]
      exact ⟨h1, h2, h3, h4⟩
  | cons s rest =>
    have hsound := readySteps_sound steps st s (by rw [hready]; exact List.mem_cons_self s rest)
    obtain ⟨hsSteps, hdeps, _⟩ := hsound
    dsimp only
    cases hoc : outcome s.id with
    | true =>
      rw [if_pos rfl]
      refine ⟨?_, ?_, ?_, ?_⟩
      · intro id hid
        rcases List.mem_append.mp hid with h | h
        · exact h1 id h
        · rw [List.mem_singleton.mp h]
          exact hoc
      · intro t ht htdisp d hd
        rcases List.mem_append.mp htdisp with h | h
        · exact List.mem_append.mpr (Or.inl (h2 t ht h d hd))
        · have hts : t = s := List.inj_on_of_nodup_map hnd ht hsSteps (List.mem_singleton.mp h)
          subst hts
          exact List.mem_append.mpr (Or.inl (hdeps d hd))
      · intro id hid
        rcases List.mem_append.mp hid with h | h
        · exact List.mem_append.mpr (Or.inl (h3 id h))
        · exact List.mem_append.mpr (Or.inr h)
      · intro t ht htf
        exact ⟨(h4 t ht htf).1, fun hfoe => False.elim (hnofail t ht htf hfoe)⟩
    | false =>
      rw [if_neg (fun hcontra => Bool.noConfusion hcontra)]
      refine ⟨h1, ?_, ?_, ?_⟩
      · intro t ht htdisp d hd
        rcases List.mem_append.mp htdisp with h | h
        · exact h2 t ht h d hd
        · have hts : t = s := List.inj_on_of_nodup_map hnd ht hsSteps (List.mem_singleton.mp h)
          subst hts
          exact hdeps d hd
      · intro id hid
        exact List.mem_append.mpr (Or.inl (h3 id hid))
      · intro t ht htf
        rcases List.mem_append.mp htf with h | h
        · exact ⟨(h4 t ht h).1, fun hfoe => False.elim (hnofail t ht h hfoe)⟩
        · have hts : t = s := List.inj_on_of_nodup_map hnd ht hsSteps (List.mem_singleton.mp h)
          subst hts
          refine ⟨hoc, fun hfoe => ?_⟩
          rw [hfoe]
          rfl

theorem runEngine_inv (steps : List WorkflowStep) (outcome : String → Bool)
    (hnd : (steps.map WorkflowStep.id).Nodup) :
    ∀ (fuel : ℕ) (st : EngineState), EngineInv steps outcome st →
    EngineInv steps outcome (WorkflowEngine.runEngine steps outcome fuel st) := by
  intro fuel
  induction fuel with
  | zero => intro st hinv; exact hinv
  | succ n ih =>
    intro st hinv
    rw [WorkflowEngine.runEngine]
    by_cases hrun : st.status = ExecStatus.Running
    · rw [if_pos hrun]
      exact ih _ (engineStep_inv steps outcome st hnd hrun hinv)
    · rw [if_neg hrun]
      exact hinv

theorem no_dispatch_of_transdep (steps : List WorkflowStep) (outcome : String → Bool)
    (st : EngineState) (hinv : EngineInv steps outcome st) :
    ∀ a fid, TransDep steps a fid → outcome fid = false → a ∉ st.dispatched := by
  intro a fid hdep
  induction hdep with
  | direct s d hsSteps hdDep =>
    intro hout hdisp
    have hdc := hinv.2.1 s hsSteps hdisp d hdDep
    have hdt := hinv.1 d hdc
    rw [hdt] at hout
    exact Bool.noConfusion hout
  | tail s d f hsSteps hdDep _ ih =>
    intro hout hdisp
    have hdc := hinv.2.1 s hsSteps hdisp d hdDep
    have hdd := hinv.2.2.1 d hdc
    exact ih hout hdd

/-- C7: in the engine modelled from the spec (the engine source itself is not
part of the sources), when a step with `fail_on_error = true` terminates
Failed, the workflow status is Failed, and no step transitively depending on
a failed step is ever dispatched (never reaches Running); in particular for
the chain A -> B -> C with B failing fatally, the final status is Failed,
`completed_steps` contains A, `failed_steps` contains B, and C is never
dispatched. -/
theorem C7_fail_on_error_propagation (steps : List WorkflowStep)
    (outcome : String → Bool) (f : WorkflowStep)
    (hnd : (steps.map WorkflowStep.id).Nodup) (hf : f ∈ steps)
    (hfe : f.fail_on_error = true) (hout : outcome f.id = false) :
    (f.id ∈ (WorkflowEngine.execute steps outcome).failed_steps →
      (WorkflowEngine.execute steps outcome).status = ExecStatus.Failed) ∧
    (∀ a, TransDep steps a f.id →
      a ∉ (WorkflowEngine.execute steps outcome).dispatched) ∧
    ((WorkflowEngine.execute chainSteps chainOutcome).status = ExecStatus.Failed ∧
     "A" ∈ (WorkflowEngine.execute chainSteps chainOutcome).completed_steps ∧
     "B" ∈ (WorkflowEngine.execute chainSteps chainOutcome).failed_steps ∧
     "C" ∉ (WorkflowEngine.execute chainSteps chainOutcome).dispatched) := by
  have hinit : EngineInv steps outcome
      { status := ExecStatus.Running, completed_steps := [], failed_steps := [],
        dispatched := [] } := by
    refine ⟨?_, ?_, ?_, ?_⟩ <;> simp
  have hfinal : EngineInv steps outcome (WorkflowEngine.execute steps outcome) := by
    unfold WorkflowEngine.execute
    exact runEngine_inv steps outcome hnd _ _ hinit
  refine ⟨?_, ?_, ?_⟩
  · intro hmem
    exact (hfinal.2.2.2 f hf hmem).2 hfe
  · intro a hdep
    exact no_dispatch_of_transdep steps outcome _ hfinal a f.id hdep hout
  · refine ⟨?_, ?_, ?_, ?_⟩ <;> decide

/-- Witness for C7 at the A -> B -> C chain with B failing fatally. -/
theorem C7_fail_on_error_propagation_witness :
    ((chainSteps.map WorkflowStep.id).Nodup ∧ stepB ∈ chainSteps ∧
      stepB.fail_on_error = true ∧ chainOutcome stepB.id = false) ∧
    ((stepB.id ∈ (WorkflowEngine.execute chainSteps chainOutcome).failed_steps →
       (WorkflowEngine.execute chainSteps chainOutcome).status = ExecStatus.Failed) ∧
     (∀ a, TransDep chainSteps a stepB.id →
       a ∉ (WorkflowEngine.execute chainSteps chainOutcome).dispatched) ∧
     ((WorkflowEngine.execute chainSteps chainOutcome).status = ExecStatus.Failed ∧
      "A" ∈ (WorkflowEngine.execute chainSteps chainOutcome).completed_steps ∧
      "B" ∈ (WorkflowEngine.execute chainSteps chainOutcome).failed_steps ∧
      "C" ∉ (WorkflowEngine.execute chainSteps chainOutcome).dispatched)) :=
  ⟨⟨by decide, by decide, by decide, by decide⟩,
   C7_fail_on_error_propagation chainSteps chainOutcome stepB
     (by decide) (by decide) (by decide) (by decide)⟩

theorem task_id_inj (tasks : List WorkflowTask) (hnd : (taskIds tasks).Nodup)
    {t u : WorkflowTask} (ht : t ∈ tasks) (hu : u ∈ tasks) (h : t.id = u.id) :
    t = u :=
  List.inj_on_of_nodup_map hnd ht hu h

theorem dedupFirstAux_of_nodup :
    ∀ (fuel : ℕ) (l : List String), l.Nodup → l.length ≤ fuel →
    dedupFirstAux fuel l = l := by
  intro fuel
  induction fuel with
  | zero =>
    intro l hl hlen
    cases l with
    | nil => rfl
    | cons x xs => simp at hlen
  | succ n ih =>
    intro l hl hlen
    cases l with
    | nil => rfl
    | cons x xs =>
      rw [dedupFirstAux]
      have hx : x ∉ xs := (List.nodup_cons.mp hl).1
      have hfil : xs.filter (fun y => y != x) = xs := by
        apply List.filter_eq_self.mpr
        intro y hy
        rw [bne_iff_ne]
        exact fun he => hx (he ▸ hy)
      rw [hfil]
      have hlen2 : xs.length ≤ n := by
        simp at hlen
        omega
      rw [ih xs (List.nodup_cons.mp hl).2 hlen2]

theorem dedupFirst_of_nodup (l : List String) (hl : l.Nodup) : dedupFirst l = l :=
  dedupFirstAux_of_nodup l.length l hl le_rfl

theorem filter_id_single (tasks : List WorkflowTask)
    (hnd : (taskIds tasks).Nodup) {t : WorkflowTask} (ht : t ∈ tasks) :
    tasks.filter (fun u => u.id == t.id) = [t] := by
  induction tasks with
  | nil => cases ht
  | cons u rest ih =>
    have hnd2 : (taskIds rest).Nodup := (List.nodup_cons.mp hnd).2
    have hu_not : u.id ∉ taskIds rest := (List.nodup_cons.mp hnd).1
    rcases List.mem_cons.mp ht with rfl | hmem
    · rw [List.filter_cons, if_pos (by simp)]
      have hrest : rest.filter (fun v => v.id == t.id) = [] := by
        apply List.filter_eq_nil_iff.mpr
        intro v hv hbeq
        have hvt : v.id = t.id := by simpa using hbeq
        exact hu_not (hvt ▸ List.mem_map_of_mem WorkflowTask.id hv)
      rw [hrest]
    · have hne : ¬(u.id == t.id) = true := by
        simp only [beq_iff_eq]
        intro he
        exact hu_not (he ▸ List.mem_map_of_mem WorkflowTask.id hmem)
      rw [List.filter_cons, if_neg hne]
      exact ih hnd2 hmem

theorem degInit_eq (tasks : List WorkflowTask) (hnd : (taskIds tasks).Nodup)
    {t : WorkflowTask} (ht : t ∈ tasks) : degInit tasks t.id = t.deps.length := by
  unfold degInit
  rw [filter_id_single tasks hnd ht]
  simp

theorem adj_mem (tasks : List WorkflowTask) {node y : String}
    (hy : y ∈ adj tasks node) : ∃ t ∈ tasks, t.id = y ∧ node ∈ t.deps := by
  unfold adj at hy
  rw [List.mem_flatMap] at hy
  obtain ⟨t, ht, hin⟩ := hy
  rw [List.mem_map] at hin
  obtain ⟨d, hd, hdy⟩ := hin
  rw [List.mem_filter] at hd
  refine ⟨t, ht, hdy, ?_⟩
  have : d = node := by simpa using hd.2
  exact this ▸ hd.1

theorem count_map_const (l : List String) (c x : String) :
    ((l.map (fun _ => c)).count x) = if c = x then l.length else 0 := by
  induction l with
  | nil => simp
  | cons a rest ih =>
    rw [List.map_cons, List.count_cons, ih]
    by_cases h : c = x
    · simp [h]
    · simp [h, Ne.symm h]

theorem adj_count (tasks : List WorkflowTask) (hnd : (taskIds tasks).Nodup)
    {t : WorkflowTask} (ht : t ∈ tasks) (node : String) :
    (adj tasks node).count t.id = t.deps.count node := by
  induction tasks with
  | nil => cases ht
  | cons u rest ih =>
    have hnd2 : (taskIds rest).Nodup := (List.nodup_cons.mp hnd).2
    have hu_not : u.id ∉ taskIds rest := (List.nodup_cons.mp hnd).1
    have hadj_cons : adj (u :: rest) node =
        ((u.deps.filter (fun x => x == node)).map (fun _ => u.id)) ++ adj rest node := by
      unfold adj
      rw [List.flatMap_cons]
    rw [hadj_cons, List.count_append]
    have hzero : ∀ x, x ∉ taskIds rest → (adj rest node).count x = 0 := by
      intro x hx
      rw [List.count_eq_zero]
      intro hmem
      obtain ⟨v, hv, hvid, _⟩ := adj_mem rest hmem
      exact hx (hvid ▸ List.mem_map_of_mem WorkflowTask.id hv)
    rcases List.mem_cons.mp ht with rfl | hmem
    · rw [count_map_const, if_pos rfl, hzero t.id hu_not, Nat.add_zero,
        ← List.countP_eq_length_filter]
      rfl
    · have hne : u.id ≠ t.id := by
        intro he
        exact hu_not (he ▸ List.mem_map_of_mem WorkflowTask.id hmem)
      rw [count_map_const, if_neg hne, ih hnd2 hmem]
      omega

theorem filter_split_node (l popped : List String) (node : String)
    (hn : node ∉ popped) :
    (l.filter (fun d => decide (d ∉ popped))).length =
    (l.filter (fun d => decide (d ∉ popped ++ [node]))).length + l.count node := by
  induction l with
  | nil => simp
  | cons d rest ih =>
    rw [List.filter_cons, List.filter_cons, List.count_cons]
    by_cases hd : d = node
    · rw [hd]
      rw [if_pos (by simp [hn]), if_neg (by simp)]
      have hb : (node == node) = true := beq_self_eq_true node
      rw [hb]
      simp only [List.length_cons, if_true]
      omega
    · have hne : (d == node) = false := by simp [hd]
      rw [hne]
      by_cases hdp : d ∈ popped
      · rw [if_neg (by simp [hdp]), if_neg (by simp [hdp])]
        simp only [Bool.false_eq_true, if_false]
        omega
      · have hdpn : d ∉ popped ++ [node] := by simp [hdp, hd]
        rw [if_pos (by simp [hdp]), if_pos (by simp [hdpn])]
        simp only [List.length_cons, Bool.false_eq_true, if_false]
        omega

theorem TaskDep_trans (tasks : List WorkflowTask) {a b c : String}
    (h1 : TaskDep tasks a b) (h2 : TaskDep tasks b c) : TaskDep tasks a c := by
  induction h1 generalizing c with
  | direct t d ht hd => exact TaskDep.tail t d c ht hd h2
  | tail t d f ht hd hrest ih => exact TaskDep.tail t d c ht hd (ih h2)

theorem TaskDep_src_mem (tasks : List WorkflowTask) {a b : String}
    (h : TaskDep tasks a b) : a ∈ taskIds tasks := by
  cases h with
  | direct =>
    rename_i t ht hd
    exact List.mem_map_of_mem WorkflowTask.id ht
  | tail =>
    rename_i t d ht hd hrest
    exact List.mem_map_of_mem WorkflowTask.id ht

theorem TaskDep_head (tasks : List WorkflowTask) {a b : String}
    (h : TaskDep tasks a b) :
    ∃ t ∈ tasks, t.id = a ∧ ∃ d ∈ t.deps, (d = b ∨ TaskDep tasks d b) := by
  cases h with
  | direct =>
    rename_i t ht hd
    exact ⟨t, ht, rfl, b, hd, Or.inl rfl⟩
  | tail =>
    rename_i t d ht hd hrest
    exact ⟨t, ht, rfl, d, hd, Or.inr hrest⟩

theorem Founded_not_self (tasks : List WorkflowTask)
    (hnd : (taskIds tasks).Nodup) :
    ∀ a, Founded tasks a → ¬ TaskDep tasks a a := by
  intro a hF
  induction hF with
  | mk t ht hdeps ih =>
    intro hself
    obtain ⟨t2, ht2, hid, d, hd, hor⟩ := TaskDep_head tasks hself
    have ht2t : t2 = t := task_id_inj tasks hnd ht2 ht hid
    subst ht2t
    rcases hor with rfl | hdep
    · exact ih t2.id hd hself
    · exact ih d hd (TaskDep_trans tasks hdep (TaskDep.direct t2 d ht2 hd))

theorem processNeighbors_spec (tasks : List WorkflowTask)
    (hnd : (taskIds tasks).Nodup) (node : String) (popped : List String)
    (hnode_np : node ∉ popped)
    (hnode_closed : ∀ t ∈ tasks, t.id = node → ∀ d ∈ t.deps, d ∈ popped)
    (hpopped_closed : ∀ t ∈ tasks, t.id ∈ popped → ∀ d ∈ t.deps, d ∈ popped)
    (hPfounded : ∀ x ∈ popped ++ [node], Founded tasks x) :
    ∀ (nbs : List String), (∀ x ∈ nbs, x ∈ adj tasks node) →
    ∀ (deg : String → ℕ) (queue : List String),
    KahnMidInv tasks node popped nbs deg queue →
    KahnMidInv tasks node popped []
      (processNeighbors (taskIds tasks) nbs deg queue).1
      (processNeighbors (taskIds tasks) nbs deg queue).2 := by
  intro nbs
  induction nbs with
  | nil =>
    intro _ deg queue hmid
    exact hmid
  | cons nb nbs ih =>
    intro hsub deg queue hmid
    rw [processNeighbors]
    by_cases hnb : ((taskIds tasks).contains nb) = true
    · rw [if_pos hnb]
      have hnbmem : nb ∈ taskIds tasks := List.elem_iff.mp hnb
      obtain ⟨tnb, htnb, htnbid⟩ := List.mem_map.mp hnbmem
      have hadj : nb ∈ adj tasks node := hsub nb (List.mem_cons_self nb nbs)
      obtain ⟨t2, ht2, ht2id, hnodedep⟩ := adj_mem tasks hadj
      have ht2tnb : t2 = tnb := task_id_inj tasks hnd ht2 htnb (ht2id.trans htnbid.symm)
      subst ht2tnb
      have hnbP : nb ∉ popped ++ [node] := by
        intro hin
        rcases List.mem_append.mp hin with hp | hs
        · exact hnode_np (hpopped_closed t2 ht2 (htnbid ▸ hp) node hnodedep)
        · have hnbnode : nb = node := List.mem_singleton.mp hs
          exact hnode_np (hnode_closed t2 ht2 (htnbid.trans hnbnode) node hnodedep)
      have hcnt : (nb :: nbs).count nb = nbs.count nb + 1 := by
        simp [List.count_cons]
      have hdeg0 := hmid.deg_eq t2 ht2
      rw [htnbid, hcnt] at hdeg0
      have hnbq : nb ∉ queue := by
        intro hq
        have hiff := (hmid.queue_iff t2 ht2).mp (by rw [htnbid]; exact hq)
        rw [htnbid] at hiff
        omega
      have hsub2 : ∀ x ∈ nbs, x ∈ adj tasks node :=
        fun x hx => hsub x (List.mem_cons_of_mem nb hx)
      by_cases hz : deg nb - 1 = 0
      · rw [if_pos hz]
        apply ih hsub2
        refine ⟨?_, ?_, ?_, ?_, ?_, ?_⟩
        · rw [List.nodup_append]
          refine ⟨hmid.queue_nodup, List.nodup_singleton nb, ?_⟩
          intro x hx hx2
          rw [List.mem_singleton] at hx2
          exact hnbq (hx2 ▸ hx)
        · intro x hx
          rcases List.mem_append.mp hx with h | h
          · exact hmid.queue_fresh x h
          · rw [List.mem_singleton] at h
            exact h ▸ hnbP
        · intro x hx
          rcases List.mem_append.mp hx with h | h
          · exact hmid.queue_ids x h
          · rw [List.mem_singleton] at h
            exact h ▸ hnbmem
        · intro t ht
          by_cases hth : t.id = nb
          · have htt2 : t = t2 := task_id_inj tasks hnd ht ht2 (hth.trans htnbid.symm)
            subst htt2
            rw [hth, if_pos rfl]
            omega
          · rw [if_neg hth]
            have := hmid.deg_eq t ht
            rw [List.count_cons] at this
            simp only [beq_iff_eq] at this
            rw [if_neg (fun he => hth he.symm)] at this
            omega
        · intro t ht
          by_cases hth : t.id = nb
          · have htt2 : t = t2 := task_id_inj tasks hnd ht ht2 (hth.trans htnbid.symm)
            subst htt2
            constructor
            · intro _
              refine ⟨hth ▸ hnbP, ?_⟩
              rw [hth, if_pos rfl]
              exact hz
            · intro _
              rw [hth]
              exact List.mem_append.mpr (Or.inr (List.mem_singleton.mpr rfl))
          · rw [if_neg hth]
            constructor
            · intro hq
              rcases List.mem_append.mp hq with h | h
              · exact (hmid.queue_iff t ht).mp h
              · rw [List.mem_singleton] at h
                exact absurd h hth
            · intro hcond
              exact List.mem_append.mpr (Or.inl ((hmid.queue_iff t ht).mpr hcond))
        · intro x hx
          rcases List.mem_append.mp hx with h | h
          · exact hmid.queue_founded x h
          · rw [List.mem_singleton] at h
            subst h
            have hF0 : (t2.deps.filter
                (fun d => decide (d ∉ popped ++ [node]))).length = 0 := by
              omega
            have hfil := List.length_eq_zero.mp hF0
            have hdepsP : ∀ d ∈ t2.deps, d ∈ popped ++ [node] := by
              intro d hd
              by_contra hdn
              have hmemf : d ∈ t2.deps.filter
                  (fun d => decide (d ∉ popped ++ [node])) :=
                List.mem_filter.mpr ⟨hd, by simpa using hdn⟩
              rw [hfil] at hmemf
              cases hmemf
            have hfound : Founded tasks t2.id :=
              Founded.mk t2 ht2 (fun d hd => hPfounded d (hdepsP d hd))
            exact htnbid ▸ hfound
      · rw [if_neg hz]
        apply ih hsub2
        refine ⟨hmid.queue_nodup, hmid.queue_fresh, hmid.queue_ids, ?_, ?_,
          hmid.queue_founded⟩
        · intro t ht
          by_cases hth : t.id = nb
          · have htt2 : t = t2 := task_id_inj tasks hnd ht ht2 (hth.trans htnbid.symm)
            subst htt2
            rw [hth, if_pos rfl]
            omega
          · rw [if_neg hth]
            have := hmid.deg_eq t ht
            rw [List.count_cons] at this
            simp only [beq_iff_eq] at this
            rw [if_neg (fun he => hth he.symm)] at this
            omega
        · intro t ht
          by_cases hth : t.id = nb
          · have htt2 : t = t2 := task_id_inj tasks hnd ht ht2 (hth.trans htnbid.symm)
            subst htt2
            constructor
            · intro hq
              have hiff := (hmid.queue_iff t ht).mp hq
              rw [hth] at hiff
              exact absurd hiff.2 (by omega)
            · intro hcond
              rw [hth, if_pos rfl] at hcond
              exact absurd hcond.2 hz
          · rw [if_neg hth]
            exact hmid.queue_iff t ht
    · rw [if_neg hnb]
      apply ih (fun x hx => hsub x (List.mem_cons_of_mem nb hx))
      refine ⟨hmid.queue_nodup, hmid.queue_fresh, hmid.queue_ids, ?_,
        hmid.queue_iff, hmid.queue_founded⟩
      intro t ht
      have htnot : t.id ≠ nb := by
        intro he
        exact hnb (List.elem_iff.mpr (he ▸ List.mem_map_of_mem WorkflowTask.id ht))
      have := hmid.deg_eq t ht
      rw [List.count_cons] at this
      simp only [beq_iff_eq] at this
      rw [if_neg (fun he => htnot he.symm)] at this
      omega

theorem kahnStep_inv (tasks : List WorkflowTask) (hnd : (taskIds tasks).Nodup)
    (deg : String → ℕ) (node : String) (rest popped : List String)
    (hinv : KahnInv tasks deg (node :: rest) popped) :
    KahnInv tasks
      (processNeighbors (taskIds tasks) (adj tasks node) deg rest).1
      (processNeighbors (taskIds tasks) (adj tasks node) deg rest).2
      (popped ++ [node]) := by
  have hnode_ids : node ∈ taskIds tasks :=
    hinv.queue_ids node (List.mem_cons_self node rest)
  obtain ⟨tn, htn, htnid⟩ := List.mem_map.mp hnode_ids
  have hnode_np : node ∉ popped := hinv.disj node (List.mem_cons_self node rest)
  have hnodeF : Founded tasks node :=
    hinv.queue_founded node (List.mem_cons_self node rest)
  have htnq : tn.id ∈ node :: rest := by
    rw [htnid]
    exact List.mem_cons_self node rest
  have hdegnode : deg node = 0 := by
    have := ((hinv.queue_iff tn htn).mp htnq).2
    rw [htnid] at this
    exact this
  have hnode_closed : ∀ t ∈ tasks, t.id = node → ∀ d ∈ t.deps, d ∈ popped := by
    intro t ht hid d hd
    have httn : t = tn := task_id_inj tasks hnd ht htn (hid.trans htnid.symm)
    subst httn
    have hdeq := hinv.deg_eq t ht
    rw [hid] at hdeq
    have hF0 : (t.deps.filter (fun d => decide (d ∉ popped))).length = 0 := by
      omega
    have hfil := List.length_eq_zero.mp hF0
    by_contra hdn
    have hmemf : d ∈ t.deps.filter (fun d => decide (d ∉ popped)) :=
      List.mem_filter.mpr ⟨hd, by simpa using hdn⟩
    rw [hfil] at hmemf
    cases hmemf
  have hPfounded : ∀ x ∈ popped ++ [node], Founded tasks x := by
    intro x hx
    rcases List.mem_append.mp hx with hp | hs
    · exact hinv.popped_founded x hp
    · rw [List.mem_singleton] at hs
      exact hs ▸ hnodeF
  have hnodenr : node ∉ rest := (List.nodup_cons.mp hinv.queue_nodup).1
  have hmid0 : KahnMidInv tasks node popped (adj tasks node) deg rest := by
    refine ⟨?_, ?_, ?_, ?_, ?_, ?_⟩
    · exact (List.nodup_cons.mp hinv.queue_nodup).2
    · intro x hx hin
      rcases List.mem_append.mp hin with hp | hs
      · exact hinv.disj x (List.mem_cons_of_mem node hx) hp
      · rw [List.mem_singleton] at hs
        exact hnodenr (hs ▸ hx)
    · intro x hx
      exact hinv.queue_ids x (List.mem_cons_of_mem node hx)
    · intro t ht
      rw [hinv.deg_eq t ht, adj_count tasks hnd ht node]
      exact filter_split_node t.deps popped node hnode_np
    · intro t ht
      constructor
      · intro hq
        have hiff := (hinv.queue_iff t ht).mp (List.mem_cons_of_mem node hq)
        refine ⟨?_, hiff.2⟩
        intro hin
        rcases List.mem_append.mp hin with hp | hs
        · exact hiff.1 hp
        · rw [List.mem_singleton] at hs
          exact hnodenr (hs ▸ hq)
      · intro hcond
        have htq : t.id ∈ node :: rest := (hinv.queue_iff t ht).mpr
          ⟨fun hp => hcond.1 (List.mem_append.mpr (Or.inl hp)), hcond.2⟩
        rcases List.mem_cons.mp htq with he | hr
        · exact absurd (List.mem_append.mpr (Or.inr (by
            rw [List.mem_singleton]
            exact he))) hcond.1
        · exact hr
    · intro x hx
      exact hinv.queue_founded x (List.mem_cons_of_mem node hx)
  have hfin := processNeighbors_spec tasks hnd node popped hnode_np hnode_closed
    (fun t ht hp => hinv.popped_closed t ht hp) hPfounded (adj tasks node)
    (fun x hx => hx) deg rest hmid0
  refine ⟨hfin.queue_nodup, ?_, hfin.queue_fresh, hfin.queue_ids, ?_, ?_,
    hfin.queue_iff, ?_, hPfounded, hfin.queue_founded⟩
  · rw [List.nodup_append]
    exact ⟨hinv.popped_nodup, List.nodup_singleton node,
      fun x hx hx2 => hnode_np ((List.mem_singleton.mp hx2) ▸ hx)⟩
  · intro x hx
    rcases List.mem_append.mp hx with hp | hs
    · exact hinv.popped_ids x hp
    · rw [List.mem_singleton] at hs
      exact hs ▸ hnode_ids
  · intro t ht
    have := hfin.deg_eq t ht
    simpa using this
  · intro t ht htP d hd
    rcases List.mem_append.mp htP with hp | hs
    · exact List.mem_append.mpr (Or.inl (hinv.popped_closed t ht hp d hd))
    · rw [List.mem_singleton] at hs
      exact List.mem_append.mpr (Or.inl (hnode_closed t ht hs d hd))

theorem kahnLoop_spec (tasks : List WorkflowTask) (hnd : (taskIds tasks).Nodup) :
    ∀ (fuel : ℕ) (deg : String → ℕ) (queue popped : List String),
    KahnInv tasks deg queue popped →
    (taskIds tasks).length + 1 ≤ fuel + popped.length →
    KahnInv tasks (kahnLoop tasks fuel deg queue popped).1
      (kahnLoop tasks fuel deg queue popped).2.1
      (kahnLoop tasks fuel deg queue popped).2.2 ∧
    (kahnLoop tasks fuel deg queue popped).2.1 = [] := by
  intro fuel
  induction fuel with
  | zero =>
    intro deg queue popped hinv hlen
    exfalso
    have hsub : popped ⊆ taskIds tasks := fun x hx => hinv.popped_ids x hx
    have hple := (List.subperm_of_subset hinv.popped_nodup hsub).length_le
    omega
  | succ n ih =>
    intro deg queue popped hinv hlen
    cases queue with
    | nil => exact ⟨hinv, rfl⟩
    | cons node rest =>
      have hstep := kahnStep_inv tasks hnd deg node rest popped hinv
      have heq : kahnLoop tasks (n + 1) deg (node :: rest) popped =
          kahnLoop tasks n
            (processNeighbors (taskIds tasks) (adj tasks node) deg rest).1
            (processNeighbors (taskIds tasks) (adj tasks node) deg rest).2
            (popped ++ [node]) := rfl
      rw [heq]
      apply ih _ _ _ hstep
      rw [List.length_append, List.length_singleton]
      omega

theorem kahnInit_inv (tasks : List WorkflowTask) (hnd : (taskIds tasks).Nodup) :
    KahnInv tasks (degInit tasks)
      ((dedupFirst (taskIds tasks)).filter (fun id => degInit tasks id = 0)) [] := by
  rw [dedupFirst_of_nodup (taskIds tasks) hnd]
  have hqmem : ∀ x, x ∈ (taskIds tasks).filter (fun id => degInit tasks id = 0) ↔
      x ∈ taskIds tasks ∧ degInit tasks x = 0 := by
    intro x
    rw [List.mem_filter]
    simp
  refine ⟨?_, List.nodup_nil, ?_, ?_, ?_, ?_, ?_, ?_, ?_, ?_⟩
  · exact hnd.filter _
  · intro x _ hx
    cases hx
  · intro x hx
    exact ((hqmem x).mp hx).1
  · intro x hx
    cases hx
  · intro t ht
    rw [degInit_eq tasks hnd ht]
    have : t.deps.filter (fun d => decide (d ∉ ([] : List String))) = t.deps := by
      apply List.filter_eq_self.mpr
      intro d _
      simp
    rw [this]
  · intro t ht
    rw [hqmem t.id]
    constructor
    · intro h
      exact ⟨List.not_mem_nil t.id, h.2⟩
    · intro h
      exact ⟨List.mem_map_of_mem WorkflowTask.id ht, h.2⟩
  · intro t _ hx
    cases hx
  · intro x hx
    cases hx
  · intro x hx
    obtain ⟨hxids, hxdeg⟩ := (hqmem x).mp hx
    obtain ⟨t, ht, htid⟩ := List.mem_map.mp hxids
    have hdlen : t.deps.length = 0 := by
      rw [← degInit_eq tasks hnd ht, htid]
      exact hxdeg
    have hdnil := List.length_eq_zero.mp hdlen
    have hfound : Founded tasks t.id :=
      Founded.mk t ht (fun d hd => by
        rw [hdnil] at hd
        cases hd)
    exact htid ▸ hfound

theorem cycle_of_successors (tasks : List WorkflowTask) (P : String → Prop)
    (hstep : ∀ x, P x → ∃ y, P y ∧ TaskDep tasks x y)
    (x0 : String) (hx0 : P x0)
    (hidsP : ∀ x, P x → x ∈ taskIds tasks) :
    HasCycle tasks := by
  classical
  have hstep2 : ∀ s : {x : String // P x}, ∃ s2 : {x : String // P x},
      TaskDep tasks s.1 s2.1 := by
    intro s
    obtain ⟨y, hy, hdep⟩ := hstep s.1 s.2
    exact ⟨⟨y, hy⟩, hdep⟩
  let walk : ℕ → {x : String // P x} := fun n =>
    Nat.rec ⟨x0, hx0⟩ (fun _ prev => Classical.choose (hstep2 prev)) n
  have hwstep : ∀ n, TaskDep tasks (walk n).1 (walk (n + 1)).1 := by
    intro n
    exact Classical.choose_spec (hstep2 (walk n))
  have hwdep : ∀ j i, i < j → TaskDep tasks (walk i).1 (walk j).1 := by
    intro j
    induction j with
    | zero => intro i hi; exact absurd hi (Nat.not_lt_zero i)
    | succ k ihk =>
      intro i hi
      rcases Nat.lt_succ_iff_lt_or_eq.mp hi with h | h
      · exact TaskDep_trans tasks (ihk i h) (hwstep k)
      · rw [h]
        exact hwstep k
  have hmaps : ∀ n ∈ Finset.range ((taskIds tasks).length + 1),
      (walk n).1 ∈ (taskIds tasks).toFinset := by
    intro n _
    exact List.mem_toFinset.mpr (hidsP (walk n).1 (walk n).2)
  have hcard : (taskIds tasks).toFinset.card <
      (Finset.range ((taskIds tasks).length + 1)).card := by
    rw [Finset.card_range]
    have := List.toFinset_card_le (taskIds tasks)
    omega
  obtain ⟨i, hi, j, hj, hij, heq⟩ :=
    Finset.exists_ne_map_eq_of_card_lt_of_maps_to hcard hmaps
  rcases lt_or_gt_of_ne hij with hlt | hgt
  · have hdep := hwdep j i hlt
    rw [← heq] at hdep
    exact ⟨(walk i).1, hdep⟩
  · have hdep := hwdep i j hgt
    rw [heq] at hdep
    exact ⟨(walk j).1, hdep⟩

theorem validate_dag_ok_iff (tasks : List WorkflowTask)
    (hnd : (taskIds tasks).Nodup)
    (hclosed : ∀ t ∈ tasks, ∀ d ∈ t.deps, d ∈ taskIds tasks) :
    validate_dag tasks = Except.ok () ↔ ¬ HasCycle tasks := by
  have hinit := kahnInit_inv tasks hnd
  have hlen0 : (taskIds tasks).length + 1 ≤ (tasks.length + 1) +
      ([] : List String).length := by
    simp [taskIds]
  obtain ⟨hfinv, hqnil⟩ := kahnLoop_spec tasks hnd (tasks.length + 1)
    (degInit tasks)
    ((dedupFirst (taskIds tasks)).filter (fun id => degInit tasks id = 0)) []
    hinit hlen0
  set K := kahnLoop tasks (tasks.length + 1) (degInit tasks)
    ((dedupFirst (taskIds tasks)).filter (fun id => degInit tasks id = 0)) []
    with hK
  constructor
  · intro hok hcyc
    obtain ⟨a, ha⟩ := hcyc
    have haids : a ∈ taskIds tasks := TaskDep_src_mem tasks ha
    have hanp : a ∉ K.2.2 := fun hp =>
      Founded_not_self tasks hnd a (hfinv.popped_founded a hp) ha
    have hlen : K.2.2.length = tasks.length := by
      unfold validate_dag at hok
      rw [← hK] at hok
      by_contra hne
      rw [if_pos hne] at hok
      cases hok
    have hsub : (a :: K.2.2) ⊆ taskIds tasks := by
      intro x hx
      rcases List.mem_cons.mp hx with rfl | hxm
      · exact haids
      · exact hfinv.popped_ids x hxm
    have hnodup : (a :: K.2.2).Nodup := List.nodup_cons.mpr ⟨hanp, hfinv.popped_nodup⟩
    have hle := (List.subperm_of_subset hnodup hsub).length_le
    have hidslen : (taskIds tasks).length = tasks.length := by simp [taskIds]
    simp only [List.length_cons] at hle
    omega
  · intro hnc
    have hall : ∀ x ∈ taskIds tasks, x ∈ K.2.2 := by
      by_contra hex
      push_neg at hex
      obtain ⟨x0, hx0ids, hx0p⟩ := hex
      apply hnc
      refine cycle_of_successors tasks (fun x => x ∈ taskIds tasks ∧ x ∉ K.2.2)
        ?_ x0 ⟨hx0ids, hx0p⟩ (fun x hx => hx.1)
      intro x hx
      obtain ⟨hxids, hxp⟩ := hx
      obtain ⟨tx, htx, htxid⟩ := List.mem_map.mp hxids
      have hiff := hfinv.queue_iff tx htx
      rw [hqnil] at hiff
      have hdegne : K.1 tx.id ≠ 0 := by
        intro h0
        have hmem : tx.id ∈ ([] : List String) := hiff.mpr ⟨by
          rw [htxid]
          exact hxp, h0⟩
        cases hmem
      have hdeq := hfinv.deg_eq tx htx
      have hfne : tx.deps.filter (fun d => decide (d ∉ K.2.2)) ≠ [] := by
        intro hnil
        rw [hdeq, hnil] at hdegne
        simp at hdegne
      obtain ⟨d, hdf⟩ := List.exists_mem_of_ne_nil _ hfne
      have hdmem := List.mem_filter.mp hdf
      have hdnp : d ∉ K.2.2 := by simpa using hdmem.2
      refine ⟨d, ⟨hclosed tx htx d hdmem.1, hdnp⟩, ?_⟩
      rw [← htxid]
      exact TaskDep.direct tx d htx hdmem.1
    have hsub2 : K.2.2 ⊆ taskIds tasks := fun x hx => hfinv.popped_ids x hx
    have hle1 := (List.subperm_of_subset hnd hall).length_le
    have hle2 := (List.subperm_of_subset hfinv.popped_nodup hsub2).length_le
    have hidslen : (taskIds tasks).length = tasks.length := by simp [taskIds]
    unfold validate_dag
    rw [← hK]
    rw [if_neg (by omega)]

/-- C6 (amended): for task lists with pairwise-distinct ids whose
dependencies all reference ids present in the list, `validate_dag` rejects
exactly the cyclic ones — it returns the circular-dependencies error iff the
dependency relation contains a cycle, and `Ok` iff it is acyclic.  (Without
those well-formedness conditions the equivalence fails: see the
counterexample, where a dependency on a missing id is reported as
circular.) -/
theorem C6_validate_dag_cycles (tasks : List WorkflowTask)
    (hnd : (taskIds tasks).Nodup)
    (hclosed : ∀ t ∈ tasks, ∀ d ∈ t.deps, d ∈ taskIds tasks) :
    (validate_dag tasks = Except.ok () ↔ ¬ HasCycle tasks) ∧
    (validate_dag tasks = Except.error "Workflow contains circular dependencies" ↔
      HasCycle tasks) := by
  have hmain := validate_dag_ok_iff tasks hnd hclosed
  have hcases : validate_dag tasks = Except.ok () ∨
      validate_dag tasks =
        Except.error "Workflow contains circular dependencies" := by
    unfold validate_dag
    by_cases hc : (kahnLoop tasks (tasks.length + 1) (degInit tasks)
        ((dedupFirst (taskIds tasks)).filter (fun id => degInit tasks id = 0))
        []).2.2.length ≠ tasks.length
    · right
      rw [if_pos hc]
    · left
      rw [if_neg hc]
  refine ⟨hmain, ?_, ?_⟩
  · intro herr
    by_contra hnc
    rw [hmain.mpr hnc] at herr
    cases herr
  · intro hcyc
    rcases hcases with hok | herr
    · exact absurd hcyc (hmain.mp hok)
    · exact herr

/-- Witness for the amended C6 at `goodTasks`, a two-task acyclic list with
distinct ids and resolvable dependencies. -/
theorem C6_validate_dag_cycles_witness :
    ((taskIds goodTasks).Nodup ∧
     (∀ t ∈ goodTasks, ∀ d ∈ t.deps, d ∈ taskIds goodTasks)) ∧
    ((validate_dag goodTasks = Except.ok () ↔ ¬ HasCycle goodTasks) ∧
     (validate_dag goodTasks =
        Except.error "Workflow contains circular dependencies" ↔
      HasCycle goodTasks)) :=
  ⟨⟨by decide, by decide⟩, C6_validate_dag_cycles goodTasks (by decide) (by decide)⟩

/-- C6 fails as stated: the single-task list whose only dependency
references the non-existent id "x" has an acyclic dependency relation, yet
`validate_dag` reports circular dependencies (the missing id inflates the
in-degree without ever becoming processable). -/
theorem C6_validate_dag_cycles_counterexample :
    (validate_dag [taskMissingDep] =
      Except.error "Workflow contains circular dependencies" ∧
     ¬ HasCycle [taskMissingDep]) ∧
    (validate_dag [taskPlain, taskPlain] =
      Except.error "Workflow contains circular dependencies" ∧
     ¬ HasCycle [taskPlain, taskPlain]) := by
  refine ⟨⟨rfl, ?_⟩, ⟨rfl, ?_⟩⟩
  · intro hcyc
    obtain ⟨a, ha⟩ := hcyc
    have hshape : ∀ b c, TaskDep [taskMissingDep] b c → c = "x" := by
      intro b c h
      induction h with
      | direct t d ht hd =>
        rw [List.mem_singleton] at ht
        subst ht
        simpa [WorkflowTask.deps, taskMissingDep] using hd
      | tail t d f ht hd hrest ih =>
        exact ih
    have hx := hshape a a ha
    have hsrc := TaskDep_src_mem [taskMissingDep] ha
    rw [hx] at hsrc
    simp [taskIds, taskMissingDep] at hsrc
  · intro hcyc
    obtain ⟨a, ha⟩ := hcyc
    cases ha with
    | direct =>
      rename_i t ht hd
      rcases List.mem_cons.mp ht with rfl | ht2
      · simp [WorkflowTask.deps, taskPlain] at hd
      · rw [List.mem_singleton] at ht2
        subst ht2
        simp [WorkflowTask.deps, taskPlain] at hd
    | tail =>
      rename_i t d ht hd hrest
      rcases List.mem_cons.mp ht with rfl | ht2
      · simp [WorkflowTask.deps, taskPlain] at hd
      · rw [List.mem_singleton] at ht2
        subst ht2
        simp [WorkflowTask.deps, taskPlain] at hd
